import Mathlib

/-!
Shallow embedding of the core of `src/sps.py` (Simple Port Scanner): the
per-port probe coroutine `scan_port`, the batched scheduler `scan`, and the
result-parsing loop that builds the open-port list and the error map.
Network behaviour is abstracted by a `ProbeEnv` value per port describing how
the transport layer reacts to that probe; everything else follows the Python
source line by line.
-/

namespace SPS

/-- Exceptions that can arise on the code paths of `scan_port` and of the
result-parsing loop in `scan`: `asyncio.TimeoutError`, `OSError` with a
message, any other exception with a message, and the `InvalidStateError`
raised by `Future.result()` on a future that never completed. -/
inductive PyExn : Type
  | timeoutError : PyExn
  | osError : String → PyExn
  | otherExn : String → PyExn
  | invalidState : PyExn
deriving DecidableEq

/-- Behaviour of one low-level connection attempt, that is of
`asyncio.wait_for(loop.sock_connect(s, addr), timeout)` at sps.py lines
213-214: it can succeed, time out, fail with an `OSError`, or raise some
other exception class. -/
inductive ConnectResult : Type
  | success : ConnectResult
  | timedOut : ConnectResult
  | osError : String → ConnectResult
  | raised : String → ConnectResult
deriving DecidableEq

/-- Environment faced by one probe: either `socket.socket(*addrinfo[:3])` at
sps.py line 204 itself raises, in which case no socket is acquired and the
exception escapes the coroutine, or a socket is acquired and the connection
attempt behaves as the given `ConnectResult`. -/
inductive ProbeEnv : Type
  | createFail : String → ProbeEnv
  | connect : ConnectResult → ProbeEnv
deriving DecidableEq

/-- Execution summary of one `scan_port` invocation: the value handed to the
awaiting task (`Except` models an exception escaping the coroutine), whether
a socket was acquired, and whether that socket was closed by the time the
coroutine finished. -/
structure ProbeExec : Type where
  returned : Except PyExn Bool
  acquired : Bool
  sockClosed : Bool

/-- The exception classes named in the clause
`except (OSError, asyncio.TimeoutError)` of `scan_port` (sps.py line 218). -/
def isConnCaught : PyExn → Bool
  | .timeoutError => true
  | .osError _ => true
  | _ => false

/-- Result of the `try` body of `scan_port` (sps.py lines 208-217): the
bounded connection attempt followed by `is_open = True` on success. -/
def connectAttempt : ConnectResult → Except PyExn Bool
  | .success => .ok true
  | .timedOut => .error .timeoutError
  | .osError m => .error (.osError m)
  | .raised m => .error (.otherExn m)

/-- The `finally` clause of `scan_port` (sps.py lines 224-225): `s.close()`
runs on every path out of the `try` statement. -/
def runFinally (e : ProbeExec) : ProbeExec :=
  { e with sockClosed := true }

/-- Embedding of the coroutine `scan_port` (sps.py lines 199-231): a socket
is created, the connection attempt runs inside `try`, `OSError` and
`asyncio.TimeoutError` are caught and leave `is_open = False`, any other
exception propagates, and the `finally` clause closes the socket on every
one of those paths.  If socket creation itself fails, the `OSError` escapes
the coroutine before any socket exists. -/
def scan_port : ProbeEnv → ProbeExec
  | .createFail m => { returned := .error (.osError m), acquired := false, sockClosed := false }
  | .connect r =>
      let tryRes := connectAttempt r
      let handled : Except PyExn Bool :=
        match tryRes with
        | .ok b => .ok b
        | .error ex => if isConnCaught ex then .ok false else .error ex
      runFinally { returned := handled, acquired := true, sockClosed := false }

/-- What `results[port].result()` observes for a settled task (sps.py line
328): the boolean the coroutine returned, or the exception it raised. -/
inductive Outcome : Type
  | ok : Bool → Outcome
  | exn : PyExn → Outcome
deriving DecidableEq

/-- The outcome recorded for a port whose probe ran against environment
`e`. -/
def probeOutcome (e : ProbeEnv) : Outcome :=
  match (scan_port e).returned with
  | .ok b => .ok b
  | .error ex => .exn ex

/-- sps.py line 283: `ports = range(first_port, last_port+1)`. -/
def ports (first_port last_port : Nat) : List Nat :=
  List.range' first_port (last_port + 1 - first_port)

/-- sps.py line 285: `batch_count = ceil(len(ports)/batch)`. -/
def batch_count (first_port last_port k : Nat) : Nat :=
  ((ports first_port last_port).length + k - 1) / k

/-- sps.py line 290: `batch_ports = ports[i*batch:i*batch+batch]`. -/
def batch_ports (first_port last_port k i : Nat) : List Nat :=
  ((ports first_port last_port).drop (i * k)).take k

/-- The list of batches the loop at sps.py lines 286-306 iterates over, in
iteration order. -/
def batches (first_port last_port k : Nat) : List (List Nat) :=
  (List.range (batch_count first_port last_port k)).map (batch_ports first_port last_port k)

/-- Ordered association list modelling a Python dict: an insert overwrites
the value in place when the key is already present and appends the pair
otherwise, as Python dict assignment does. -/
def dictInsert {α : Type} (d : List (Nat × α)) (key : Nat) (v : α) : List (Nat × α) :=
  if d.any (fun e => decide (e.1 = key)) then
    d.map (fun e => if e.1 = key then (key, v) else e)
  else d ++ [(key, v)]

/-- `d.update(new)` for the dict model, inserting the new pairs in order. -/
def dictUpdate {α : Type} (d new : List (Nat × α)) : List (Nat × α) :=
  new.foldl (fun acc e => dictInsert acc e.1 e.2) d

/-- sps.py line 301: `dict(zip(batch_ports, tasks))`, with each task already
carrying the outcome the environment assigns to its port. -/
def batchEntries (env : Nat → ProbeEnv) (b : List Nat) : List (Nat × Outcome) :=
  b.map (fun p => (p, probeOutcome (env p)))

/-- The `results` dict after an uninterrupted run of the batch loop
(sps.py lines 281-306): starting from the empty dict, each iteration updates
it with the current batch of port/task pairs. -/
def results (first_port last_port k : Nat) (env : Nat → ProbeEnv) : List (Nat × Outcome) :=
  (batches first_port last_port k).foldl (fun acc b => dictUpdate acc (batchEntries env b)) []

/-- One step of the parsing loop at sps.py lines 325-333: an open port is
appended to `open_ports`, a false result is dropped, and a raising
`result()` call stores the exception under the port key in `errors`. -/
def parseStep (acc : List Nat × List (Nat × PyExn)) (e : Nat × Outcome) :
    List Nat × List (Nat × PyExn) :=
  match e.2 with
  | .ok true => (acc.1 ++ [e.1], acc.2)
  | .ok false => acc
  | .exn ex => (acc.1, acc.2 ++ [(e.1, ex)])

/-- The parsing loop of `scan` (sps.py lines 322-333), run over the results
dict in insertion order. -/
def parseResults (res : List (Nat × Outcome)) : List Nat × List (Nat × PyExn) :=
  res.foldl parseStep ([], [])

/-- sps.py lines 274-340 without interruption: run all batches, parse the
results, and raise `RuntimeError` carrying `open_ports` and `errors`
(modelled as `Except.error`) exactly when `errors` is non-empty. -/
def scan (first_port last_port k : Nat) (env : Nat → ProbeEnv) :
    Except (List Nat × List (Nat × PyExn)) (List Nat) :=
  let r := parseResults (results first_port last_port k env)
  if r.2.isEmpty then .ok r.1 else .error r

/-- The ports of `L` whose probe outcome is a `True` result, in the order of
`L`. -/
def openPortsOfList (L : List Nat) (env : Nat → ProbeEnv) : List Nat :=
  L.filter (fun p => decide (probeOutcome (env p) = Outcome.ok true))

/-- The port-to-exception pairs of `L` whose probe raised, in the order of
`L`. -/
def errorsOfList (L : List Nat) (env : Nat → ProbeEnv) : List (Nat × PyExn) :=
  L.filterMap (fun p =>
    match probeOutcome (env p) with
    | .exn ex => some (p, ex)
    | _ => none)

/-- All ports of the scanned range found open. -/
def openPortsOf (first_port last_port : Nat) (env : Nat → ProbeEnv) : List Nat :=
  openPortsOfList (ports first_port last_port) env

/-- The full port-to-cause error mapping of the scanned range. -/
def errorsOf (first_port last_port : Nat) (env : Nat → ProbeEnv) : List (Nat × PyExn) :=
  errorsOfList (ports first_port last_port) env

/-! ### Partitioning of the port range into batches -/

lemma chunks_flatten_aux {α : Type} (k : Nat) (hk : 0 < k) :
    ∀ (n : Nat) (l : List α), l.length ≤ n →
      ((List.range ((l.length + k - 1) / k)).map (fun i => (l.drop (i * k)).take k)).flatten = l := by
  intro n
  induction n with
  | zero =>
      intro l hl
      cases l with
      | nil =>
          have h0 : (List.length ([] : List α) + k - 1) / k = 0 := Nat.div_eq_of_lt (by simp only [List.length_nil]; omega)
          rw [h0]
          simp
      | cons a t => simp at hl
  | succ n ih =>
      intro l hl
      cases l with
      | nil =>
          have h0 : (List.length ([] : List α) + k - 1) / k = 0 := Nat.div_eq_of_lt (by simp only [List.length_nil]; omega)
          rw [h0]
          simp
      | cons a t =>
          have hbc : ((a :: t).length + k - 1) / k = t.length / k + 1 := by
            have h1 : (a :: t).length + k - 1 = t.length + k := by
              simp only [List.length_cons]
              omega
            rw [h1, Nat.add_div_right _ hk]
          rw [hbc, List.range_succ_eq_map, List.map_cons, List.map_map, List.flatten_cons]
          have hhead : ((a :: t).drop (0 * k)).take k = (a :: t).take k := by
            rw [Nat.zero_mul, List.drop_zero]
          have hmap : (List.range (t.length / k)).map
                ((fun i => ((a :: t).drop (i * k)).take k) ∘ Nat.succ)
              = (List.range (t.length / k)).map
                (fun i => (((a :: t).drop k).drop (i * k)).take k) := by
            refine List.map_congr_left fun i _ => ?_
            show ((a :: t).drop (Nat.succ i * k)).take k
                = (((a :: t).drop k).drop (i * k)).take k
            rw [Nat.succ_mul, List.drop_drop, Nat.add_comm]
          have hlen' : ((a :: t).drop k).length = t.length + 1 - k := by
            rw [List.length_drop]
            simp
          have hm : t.length / k = (((a :: t).drop k).length + k - 1) / k := by
            rw [hlen']
            rcases le_or_lt k (t.length + 1) with h | h
            · congr 1
              omega
            · rw [Nat.div_eq_of_lt (by omega), Nat.div_eq_of_lt (by omega)]
          have hrec : ((List.range ((((a :: t).drop k).length + k - 1) / k)).map
              (fun i => (((a :: t).drop k).drop (i * k)).take k)).flatten = (a :: t).drop k := by
            refine ih ((a :: t).drop k) ?_
            rw [hlen']
            have := hl
            simp at this
            omega
          rw [hhead, hmap, hm, hrec, List.take_append_drop]

lemma batches_flatten (f l k : Nat) (hk : 0 < k) :
    (batches f l k).flatten = ports f l :=
  chunks_flatten_aux k hk (ports f l).length (ports f l) le_rfl

lemma ports_sorted (f l : Nat) : (ports f l).Sorted (· < ·) :=
  List.pairwise_lt_range' f (l + 1 - f)

lemma ports_nodup (f l : Nat) : (ports f l).Nodup :=
  List.nodup_range' f (l + 1 - f)

/-- Claim C1: for every valid port range and every batch size of at least 1,
the batches produced by `scan` partition the range exactly: concatenated in
processing order they give back the whole inclusive range (so their union is
the range, they are contiguous and ascending), they are pairwise disjoint,
every batch has size at most `k`, and every batch other than the last has
size exactly `k` (only the last may be smaller). -/
theorem batches_partition (f l k : Nat)
    (_h1 : 1 ≤ f) (_h2 : f ≤ l) (_h3 : l ≤ 65535) (hk : 1 ≤ k) :
    (batches f l k).flatten = ports f l ∧
    (∀ b ∈ batches f l k, b.length ≤ k) ∧
    List.Pairwise List.Disjoint (batches f l k) ∧
    (ports f l).Sorted (· < ·) ∧
    (∀ i, i + 1 < batch_count f l k → (batch_ports f l k i).length = k) := by
  refine ⟨batches_flatten f l k hk, ?_, ?_, ports_sorted f l, ?_⟩
  · intro b hb
    simp only [batches, List.mem_map] at hb
    rcases hb with ⟨i, _, rfl⟩
    simp only [batch_ports]
    rw [List.length_take]
    exact Nat.min_le_left _ _
  · have hnd : (batches f l k).flatten.Nodup := by
      rw [batches_flatten f l k hk]
      exact ports_nodup f l
    exact (List.nodup_flatten.mp hnd).2
  · intro i hi
    have hn1 : i + 2 ≤ ((ports f l).length + k - 1) / k := by
      have h := hi
      simp only [batch_count] at h
      omega
    have hmul : (i + 2) * k ≤ (ports f l).length + k - 1 :=
      (Nat.le_div_iff_mul_le hk).mp hn1
    have hexp : (i + 2) * k = i * k + 2 * k := by ring
    have hle : i * k + k ≤ (ports f l).length := by omega
    simp only [batch_ports]
    rw [List.length_take, List.length_drop, Nat.min_eq_left (by omega)]

theorem batches_partition_witness :
    (batches 1 5 2).flatten = ports 1 5 :=
  (batches_partition 1 5 2 (by decide) (by decide) (by decide) (by decide)).1

/-! ### The results dict after an uninterrupted run -/

lemma dictInsert_of_not_mem {α : Type} (d : List (Nat × α)) (key : Nat) (v : α)
    (h : key ∉ d.map Prod.fst) : dictInsert d key v = d ++ [(key, v)] := by
  have hany : d.any (fun e => decide (e.1 = key)) = false := by
    rw [List.any_eq_false]
    intro e he
    simp only [decide_eq_true_eq]
    intro hek
    exact h (List.mem_map.mpr ⟨e, he, hek⟩)
  simp [dictInsert, hany]

lemma keys_map_pair {α : Type} (g : Nat → α) (b : List Nat) :
    (b.map (fun p => (p, g p))).map Prod.fst = b := by
  induction b with
  | nil => rfl
  | cons a t ih =>
      simp only [List.map_cons]
      rw [ih]

lemma dictUpdate_of_disjoint {α : Type} :
    ∀ (new d : List (Nat × α)),
      (∀ x ∈ new, x.1 ∉ d.map Prod.fst) → (new.map Prod.fst).Nodup →
      dictUpdate d new = d ++ new := by
  intro new
  induction new with
  | nil =>
      intro d _ _
      simp [dictUpdate]
  | cons x t ih =>
      intro d hdisj hnd
      have hx : x.1 ∉ d.map Prod.fst := hdisj x (List.mem_cons_self x t)
      have step : dictUpdate d (x :: t) = dictUpdate (d ++ [x]) t := by
        simp only [dictUpdate, List.foldl_cons]
        rw [dictInsert_of_not_mem d x.1 x.2 hx]
      rw [step, ih (d ++ [x]) ?_ ?_]
      · rw [List.append_assoc, List.singleton_append]
      · intro y hy
        rw [List.map_append, List.mem_append]
        rintro (hyd | hyx)
        · exact hdisj y (List.mem_cons_of_mem x hy) hyd
        · simp only [List.map_cons, List.map_nil, List.mem_singleton] at hyx
          rw [List.map_cons, List.nodup_cons] at hnd
          exact hnd.1 (hyx ▸ List.mem_map_of_mem Prod.fst hy)
      · rw [List.map_cons, List.nodup_cons] at hnd
        exact hnd.2

lemma foldl_dictUpdate_eq {α : Type} (g : Nat → α) :
    ∀ (bs : List (List Nat)) (acc : List (Nat × α)),
      (acc.map Prod.fst ++ bs.flatten).Nodup →
      bs.foldl (fun a b => dictUpdate a (b.map (fun p => (p, g p)))) acc
        = acc ++ bs.flatten.map (fun p => (p, g p)) := by
  intro bs
  induction bs with
  | nil =>
      intro acc _
      simp
  | cons b t ih =>
      intro acc hnd
      rw [List.flatten_cons] at hnd
      have hnd' : (acc.map Prod.fst ++ (b ++ t.flatten)).Nodup := hnd
      have hb_nodup : b.Nodup := by
        rw [← List.append_assoc] at hnd'
        exact ((List.nodup_append.mp hnd'.of_append_left).2).1
      have hdisj : ∀ x ∈ b.map (fun p => (p, g p)), x.1 ∉ acc.map Prod.fst := by
        intro x hx hxa
        rcases List.mem_map.mp hx with ⟨p, hp, rfl⟩
        rw [← List.append_assoc] at hnd'
        have hdis := List.disjoint_of_nodup_append hnd'.of_append_left
        exact hdis hxa hp
      have hstep : dictUpdate acc (b.map (fun p => (p, g p)))
          = acc ++ b.map (fun p => (p, g p)) := by
        refine dictUpdate_of_disjoint _ acc hdisj ?_
        rw [keys_map_pair]
        exact hb_nodup
      rw [List.foldl_cons, hstep, ih (acc ++ b.map (fun p => (p, g p))) ?_]
      · rw [List.flatten_cons, List.map_append, List.append_assoc]
      · rw [List.map_append, keys_map_pair, List.append_assoc]
        exact hnd'

lemma results_eq (f l k : Nat) (env : Nat → ProbeEnv) (hk : 0 < k) :
    results f l k env = (ports f l).map (fun p => (p, probeOutcome (env p))) := by
  have h := foldl_dictUpdate_eq (fun p => probeOutcome (env p)) (batches f l k) []
  simp only [List.map_nil, List.nil_append] at h
  have hnd : (batches f l k).flatten.Nodup := by
    rw [batches_flatten f l k hk]
    exact ports_nodup f l
  have h2 := h hnd
  rw [batches_flatten f l k hk] at h2
  simpa [results, batchEntries] using h2

lemma results_keys (f l k : Nat) (env : Nat → ProbeEnv) (hk : 0 < k) :
    (results f l k env).map Prod.fst = ports f l := by
  rw [results_eq f l k env hk, keys_map_pair]

/-- Claim C2: after an uninterrupted run, the accumulated results dict maps
every port of the inclusive range `[first_port, last_port]` to exactly one
outcome: its keys in insertion order are exactly the range, and every port of
the range occurs exactly once among them. -/
theorem results_exactly_once (f l k : Nat) (env : Nat → ProbeEnv)
    (_h1 : 1 ≤ f) (_h2 : f ≤ l) (_h3 : l ≤ 65535) (hk : 1 ≤ k) :
    (results f l k env).map Prod.fst = ports f l ∧
    (∀ p ∈ ports f l, ((results f l k env).map Prod.fst).count p = 1) := by
  refine ⟨results_keys f l k env hk, ?_⟩
  intro p hp
  rw [results_keys f l k env hk]
  exact List.count_eq_one_of_mem (ports_nodup f l) hp

theorem results_exactly_once_witness :
    (results 1 5 2 (fun _ => ProbeEnv.connect ConnectResult.success)).map Prod.fst = ports 1 5 :=
  (results_exactly_once 1 5 2 (fun _ => ProbeEnv.connect ConnectResult.success)
    (by decide) (by decide) (by decide) (by decide)).1

/-! ### The parsing loop -/

/-- Projection matching the `open_ports.append(port)` branch of the parsing
loop: the ports whose task returned `True`. -/
def openProj (e : Nat × Outcome) : Option Nat :=
  match e.2 with
  | .ok true => some e.1
  | _ => none

/-- Projection matching the `errors[port] = e` branch of the parsing loop:
the port-to-exception pairs of the raising tasks. -/
def errProj (e : Nat × Outcome) : Option (Nat × PyExn) :=
  match e.2 with
  | .exn ex => some (e.1, ex)
  | _ => none

lemma parse_foldl :
    ∀ (res : List (Nat × Outcome)) (op : List Nat) (errs : List (Nat × PyExn)),
      res.foldl parseStep (op, errs)
        = (op ++ res.filterMap openProj, errs ++ res.filterMap errProj) := by
  intro res
  induction res with
  | nil =>
      intro op errs
      simp
  | cons e t ih =>
      intro op errs
      rcases e with ⟨p, o⟩
      rw [List.foldl_cons]
      cases o with
      | ok b =>
          cases b with
          | true =>
              have hstep : parseStep (op, errs) (p, Outcome.ok true) = (op ++ [p], errs) := rfl
              rw [hstep, ih]
              simp [openProj, errProj]
          | false =>
              have hstep : parseStep (op, errs) (p, Outcome.ok false) = (op, errs) := rfl
              rw [hstep, ih]
              simp [openProj, errProj]
      | exn ex =>
          have hstep : parseStep (op, errs) (p, Outcome.exn ex) = (op, errs ++ [(p, ex)]) := rfl
          rw [hstep, ih]
          simp [openProj, errProj]

lemma parseResults_eq (res : List (Nat × Outcome)) :
    parseResults res = (res.filterMap openProj, res.filterMap errProj) := by
  have h := parse_foldl res [] []
  simpa [parseResults] using h

lemma filterMap_openProj (env : Nat → ProbeEnv) :
    ∀ L : List Nat,
      (L.map (fun p => (p, probeOutcome (env p)))).filterMap openProj = openPortsOfList L env := by
  intro L
  induction L with
  | nil => rfl
  | cons a t ih =>
      simp only [List.map_cons, List.filterMap_cons, openPortsOfList, List.filter_cons]
      cases h : probeOutcome (env a) with
      | ok b =>
          cases b with
          | true => simp [openProj, ih, openPortsOfList]
          | false => simp [openProj, ih, openPortsOfList]
      | exn ex => simp [openProj, ih, openPortsOfList]

lemma filterMap_errProj (env : Nat → ProbeEnv) :
    ∀ L : List Nat,
      (L.map (fun p => (p, probeOutcome (env p)))).filterMap errProj = errorsOfList L env := by
  intro L
  induction L with
  | nil => rfl
  | cons a t ih =>
      simp only [List.map_cons, List.filterMap_cons, errorsOfList]
      cases h : probeOutcome (env a) with
      | ok b =>
          cases b with
          | true => simp [errProj, ih, errorsOfList]
          | false => simp [errProj, ih, errorsOfList]
      | exn ex => simp [errProj, ih, errorsOfList]

lemma parse_results_scan (f l k : Nat) (env : Nat → ProbeEnv) (hk : 0 < k) :
    parseResults (results f l k env) = (openPortsOf f l env, errorsOf f l env) := by
  rw [results_eq f l k env hk, parseResults_eq,
    filterMap_openProj env (ports f l), filterMap_errProj env (ports f l)]
  rfl

/-- Claim C3: the scan raises the aggregate error exactly when some port
probe ended in an error outcome, and the raised condition carries the
complete open-port list and the complete port-to-cause error mapping; when
no probe erred, `scan` returns the open-port list normally.  A single error
never aborts the run: the results dict always covers the whole range. -/
theorem scan_error_aggregation (f l k : Nat) (env : Nat → ProbeEnv) (hk : 1 ≤ k) :
    ((results f l k env).map Prod.fst = ports f l) ∧
    ((∃ p ∈ ports f l, ∃ ex, probeOutcome (env p) = Outcome.exn ex) →
      scan f l k env = Except.error (openPortsOf f l env, errorsOf f l env)) ∧
    ((∀ p ∈ ports f l, ∀ ex, probeOutcome (env p) ≠ Outcome.exn ex) →
      scan f l k env = Except.ok (openPortsOf f l env)) := by
  refine ⟨results_keys f l k env hk, ?_, ?_⟩
  · rintro ⟨p, hp, ex, hex⟩
    have hmem : (p, ex) ∈ errorsOf f l env := by
      unfold errorsOf errorsOfList
      refine List.mem_filterMap.mpr ⟨p, hp, ?_⟩
      rw [hex]
    have hne : (errorsOf f l env).isEmpty = false := by
      cases herr : errorsOf f l env with
      | nil => rw [herr] at hmem; cases hmem
      | cons x xs => rfl
    unfold scan
    rw [parse_results_scan f l k env hk]
    simp [hne]
  · intro hno
    have hnil : errorsOf f l env = [] := by
      unfold errorsOf errorsOfList
      rw [List.filterMap_eq_nil_iff]
      intro p hp
      cases h : probeOutcome (env p) with
      | ok b => rfl
      | exn ex => exact absurd h (hno p hp ex)
    unfold scan
    rw [parse_results_scan f l k env hk, hnil]
    rfl

/-- Environment in which port 2 probes raise an exception that is not caught
inside the coroutine and every other port connects successfully. -/
def envWithError : Nat → ProbeEnv := fun p =>
  if p = 2 then ProbeEnv.connect (ConnectResult.raised "boom")
  else ProbeEnv.connect ConnectResult.success

theorem scan_error_aggregation_witness :
    scan 1 2 2 envWithError = Except.error (openPortsOf 1 2 envWithError, errorsOf 1 2 envWithError) :=
  (scan_error_aggregation 1 2 2 envWithError (by decide)).2.1
    ⟨2, by decide, PyExn.otherExn "boom", rfl⟩

/-! ### The report as a pure projection -/

lemma filterMap_openProj_sublist (res : List (Nat × Outcome)) :
    List.Sublist (res.filterMap openProj) (res.map Prod.fst) := by
  induction res with
  | nil => simp
  | cons e t ih =>
      rw [List.filterMap_cons, List.map_cons]
      rcases e with ⟨q, o⟩
      cases o with
      | ok b =>
          cases b with
          | true =>
              have h : openProj (q, Outcome.ok true) = some q := rfl
              rw [h]
              exact ih.cons₂ q
          | false =>
              have h : openProj (q, Outcome.ok false) = none := rfl
              rw [h]
              exact ih.cons q
      | exn ex =>
          have h : openProj (q, Outcome.exn ex) = none := rfl
          rw [h]
          exact ih.cons q

/-- Claim C6: the report assembly is a pure projection of the accumulated
results: the open-port list contains exactly the ports whose outcome is a
`True` result and is ascending whenever the result keys are, and the error
map contains exactly the port-to-cause pairs of the raising probes; on the
synthetic outcomes 1 open, 2 closed, 3 errored with cause `E`, it yields
open list `[1]` and error map `[(3, E)]`. -/
theorem report_pure_projection (res : List (Nat × Outcome))
    (hs : (res.map Prod.fst).Sorted (· < ·)) :
    (parseResults res).1.Sorted (· < ·) ∧
    (∀ p, p ∈ (parseResults res).1 ↔ (p, Outcome.ok true) ∈ res) ∧
    (∀ p ex, (p, ex) ∈ (parseResults res).2 ↔ (p, Outcome.exn ex) ∈ res) ∧
    parseResults [(1, Outcome.ok true), (2, Outcome.ok false), (3, Outcome.exn (PyExn.osError "E"))]
      = ([1], [(3, PyExn.osError "E")]) := by
  refine ⟨?_, ?_, ?_, rfl⟩
  · rw [parseResults_eq]
    exact List.Pairwise.sublist (filterMap_openProj_sublist res) hs
  · intro p
    rw [parseResults_eq]
    simp only [List.mem_filterMap]
    constructor
    · rintro ⟨⟨q, o⟩, hmem, hproj⟩
      cases o with
      | ok b =>
          cases b with
          | true =>
              have h : openProj (q, Outcome.ok true) = some q := rfl
              rw [h, Option.some_inj] at hproj
              rw [← hproj]
              exact hmem
          | false => cases hproj
      | exn ex => cases hproj
    · intro hmem
      exact ⟨(p, Outcome.ok true), hmem, rfl⟩
  · intro p ex
    rw [parseResults_eq]
    simp only [List.mem_filterMap]
    constructor
    · rintro ⟨⟨q, o⟩, hmem, hproj⟩
      cases o with
      | ok b => cases b with
          | true => cases hproj
          | false => cases hproj
      | exn ex2 =>
          have h : errProj (q, Outcome.exn ex2) = some (q, ex2) := rfl
          rw [h, Option.some_inj] at hproj
          injection hproj with h1 h2
          subst h1
          subst h2
          exact hmem
    · intro hmem
      exact ⟨(p, Outcome.exn ex), hmem, rfl⟩

theorem report_pure_projection_witness :
    parseResults [(1, Outcome.ok true), (2, Outcome.ok false), (3, Outcome.exn (PyExn.osError "E"))]
      = ([1], [(3, PyExn.osError "E")]) :=
  (report_pure_projection [(1, Outcome.ok true), (2, Outcome.ok false),
    (3, Outcome.exn (PyExn.osError "E"))] (by decide)).2.2.2

/-! ### Temporal trace of the batch loop -/

/-- Observable events of one scan run: a probe task of a batch starting, a
probe of a batch settling with its outcome recorded, and the inter-batch
interval sleep. -/
inductive Event : Type
  | start : Nat → Nat → Event
  | settle : Nat → Nat → Outcome → Event
  | intervalWait : Nat → Event
deriving DecidableEq

/-- Events of the same batch may interleave arbitrarily, so they share a
rank; the interval sleep of a batch ranks strictly after that batch and
strictly before the next one. -/
def Event.rank : Event → Nat
  | .start i _ => 2 * i
  | .settle i _ _ => 2 * i
  | .intervalWait i => 2 * i + 1

def Event.isWait : Event → Bool
  | .intervalWait _ => true
  | _ => false

/-- The start events of batch `i` over ports `b`, in port order. -/
def startEvents (i : Nat) (b : List Nat) : List Event :=
  b.map (Event.start i)

/-- The settle events of batch `i` over ports `b`: each records the outcome
the environment assigns to the port. -/
def settleEvents (env : Nat → ProbeEnv) (i : Nat) (b : List Nat) : List Event :=
  b.map (fun p => Event.settle i p (probeOutcome (env p)))

/-- Trace skeleton of the loop at sps.py lines 286-306: for batch `i` the
tasks are created and run to completion inside
`run_until_complete(asyncio.wait(tasks))`, producing the batch events `σ i`
in an order chosen by the asyncio loop, then the scheduler sleeps for the
interval, then the next iteration begins. -/
def traceAux (σ : Nat → List Event) : Nat → Nat → List Event
  | _, 0 => []
  | i, n + 1 => σ i ++ Event.intervalWait i :: traceAux σ (i + 1) n

/-- The full event trace of an uninterrupted run. -/
def scanTrace (f l k : Nat) (σ : Nat → List Event) : List Event :=
  traceAux σ 0 (batch_count f l k)

/-- A scheduling oracle is valid when the events it emits for batch `i` are
exactly the start and settle events of that batch, in any order; this
captures that nothing is guaranteed about ordering within a batch. -/
def ValidSchedule (f l k : Nat) (env : Nat → ProbeEnv) (σ : Nat → List Event) : Prop :=
  ∀ i, List.Perm (σ i)
    (startEvents i (batch_ports f l k i) ++ settleEvents env i (batch_ports f l k i))

lemma valid_rank (f l k : Nat) (env : Nat → ProbeEnv) (σ : Nat → List Event)
    (hσ : ValidSchedule f l k env σ) :
    ∀ i e, e ∈ σ i → Event.rank e = 2 * i := by
  intro i e he
  have hmem := (hσ i).mem_iff.mp he
  rw [List.mem_append] at hmem
  rcases hmem with hm | hm
  · rcases List.mem_map.mp hm with ⟨p, _, rfl⟩
    rfl
  · rcases List.mem_map.mp hm with ⟨p, _, rfl⟩
    rfl

lemma valid_no_wait (f l k : Nat) (env : Nat → ProbeEnv) (σ : Nat → List Event)
    (hσ : ValidSchedule f l k env σ) :
    ∀ i e, e ∈ σ i → Event.isWait e = false := by
  intro i e he
  have hmem := (hσ i).mem_iff.mp he
  rw [List.mem_append] at hmem
  rcases hmem with hm | hm
  · rcases List.mem_map.mp hm with ⟨p, _, rfl⟩
    rfl
  · rcases List.mem_map.mp hm with ⟨p, _, rfl⟩
    rfl

lemma traceAux_rank_lower (σ : Nat → List Event)
    (hr : ∀ i e, e ∈ σ i → Event.rank e = 2 * i) :
    ∀ (n i : Nat) (e : Event), e ∈ traceAux σ i n → 2 * i ≤ Event.rank e := by
  intro n
  induction n with
  | zero =>
      intro i e he
      simp [traceAux] at he
  | succ n ih =>
      intro i e he
      simp only [traceAux] at he
      rcases List.mem_append.mp he with h | h
      · rw [hr i e h]
      · rcases List.mem_cons.mp h with h | h
        · subst h
          simp only [Event.rank]
          omega
        · have h2 := ih (i + 1) e h
          omega

lemma pairwise_rank_const (L : List Event) (c : Nat) (h : ∀ e ∈ L, Event.rank e = c) :
    L.Pairwise (fun a b => Event.rank a ≤ Event.rank b) := by
  induction L with
  | nil => exact List.Pairwise.nil
  | cons x t ih =>
      refine List.Pairwise.cons ?_ (ih ?_)
      · intro b hb
        rw [h x (List.mem_cons_self x t), h b (List.mem_cons_of_mem x hb)]
      · intro e he
        exact h e (List.mem_cons_of_mem x he)

lemma traceAux_pairwise (σ : Nat → List Event)
    (hr : ∀ i e, e ∈ σ i → Event.rank e = 2 * i) :
    ∀ (n i : Nat), (traceAux σ i n).Pairwise (fun a b => Event.rank a ≤ Event.rank b) := by
  intro n
  induction n with
  | zero =>
      intro i
      simp only [traceAux]
      exact List.Pairwise.nil
  | succ n ih =>
      intro i
      simp only [traceAux]
      rw [List.pairwise_append]
      refine ⟨pairwise_rank_const (σ i) (2 * i) (hr i), ?_, ?_⟩
      · refine List.Pairwise.cons ?_ (ih (i + 1))
        intro b hb
        have hb2 := traceAux_rank_lower σ hr n (i + 1) b hb
        have hwr : Event.rank (Event.intervalWait i) = 2 * i + 1 := rfl
        rw [hwr]
        omega
      · intro a ha b hb
        have ha2 := hr i a ha
        rcases List.mem_cons.mp hb with h | h
        · subst h
          have hwr : Event.rank (Event.intervalWait i) = 2 * i + 1 := rfl
          rw [hwr, ha2]
          omega
        · have hb2 := traceAux_rank_lower σ hr n (i + 1) b h
          omega

lemma rank_lt_index_lt (tr : List Event)
    (hp : tr.Pairwise (fun a b => Event.rank a ≤ Event.rank b))
    (i j : Nat) (a b : Event) (ha : tr.get? i = some a) (hb : tr.get? j = some b)
    (hr : Event.rank a < Event.rank b) : i < j := by
  by_contra hcon
  have hji : j ≤ i := Nat.le_of_not_lt hcon
  rcases Nat.eq_or_lt_of_le hji with heq | hlt
  · subst heq
    rw [ha] at hb
    injection hb with hab
    rw [hab] at hr
    exact absurd hr (lt_irrefl _)
  · rcases List.get?_eq_some.mp ha with ⟨hi, hga⟩
    rcases List.get?_eq_some.mp hb with ⟨hj, hgb⟩
    have hP := List.pairwise_iff_get.mp hp ⟨j, hj⟩ ⟨i, hi⟩ hlt
    rw [hga, hgb] at hP
    omega

/-- Claim C5: batches run strictly sequentially.  For every valid
interleaving of the per-batch events, every settle event of batch `m`
precedes every start event of batch `m+1` in the trace: no probe of a batch
starts before every probe of the previous batch has produced and recorded
its outcome.  The interleaving within one batch is arbitrary, so no
intra-batch ordering is asserted. -/
theorem batches_sequential (f l k : Nat) (env : Nat → ProbeEnv) (σ : Nat → List Event)
    (hσ : ValidSchedule f l k env σ) :
    ∀ (m p q i j : Nat) (o : Outcome),
      (scanTrace f l k σ).get? i = some (Event.settle m p o) →
      (scanTrace f l k σ).get? j = some (Event.start (m + 1) q) →
      i < j := by
  intro m p q i j o ha hb
  have hr := valid_rank f l k env σ hσ
  have hp := traceAux_pairwise σ hr (batch_count f l k) 0
  refine rank_lt_index_lt (scanTrace f l k σ) hp i j _ _ ha hb ?_
  simp only [Event.rank]
  omega

lemma traceAux_filter_wait (σ : Nat → List Event)
    (hw : ∀ i e, e ∈ σ i → Event.isWait e = false) :
    ∀ (n i : Nat), (traceAux σ i n).filter Event.isWait
      = (List.range' i n).map Event.intervalWait := by
  intro n
  induction n with
  | zero =>
      intro i
      simp [traceAux]
  | succ n ih =>
      intro i
      simp only [traceAux]
      rw [List.filter_append]
      have h1 : (σ i).filter Event.isWait = [] := by
        rw [List.filter_eq_nil_iff]
        intro e he
        simp [hw i e he]
      rw [h1, List.nil_append, List.filter_cons]
      have h2 : Event.isWait (Event.intervalWait i) = true := rfl
      rw [h2]
      simp only [if_true, ih (i + 1)]
      rfl

/-- Claim C9: the interval sleep happens exactly once per batch, after the
batch outcomes are recorded, including after the final batch: the wait
events of the trace are exactly one per batch index in order, and every
settle event of a batch precedes that batch's wait event. -/
theorem interval_after_each_batch (f l k : Nat) (env : Nat → ProbeEnv) (σ : Nat → List Event)
    (hσ : ValidSchedule f l k env σ) :
    ((scanTrace f l k σ).filter Event.isWait
        = (List.range (batch_count f l k)).map Event.intervalWait) ∧
    (∀ (m p i j : Nat) (o : Outcome),
      (scanTrace f l k σ).get? i = some (Event.settle m p o) →
      (scanTrace f l k σ).get? j = some (Event.intervalWait m) →
      i < j) := by
  constructor
  · have hw := valid_no_wait f l k env σ hσ
    have h := traceAux_filter_wait σ hw (batch_count f l k) 0
    rw [List.range_eq_range']
    exact h
  · intro m p i j o ha hb
    have hr := valid_rank f l k env σ hσ
    have hp := traceAux_pairwise σ hr (batch_count f l k) 0
    refine rank_lt_index_lt (scanTrace f l k σ) hp i j _ _ ha hb ?_
    simp only [Event.rank]
    omega

/-- Environment in which every probe connects successfully. -/
def envAllOpen : Nat → ProbeEnv := fun _ => ProbeEnv.connect ConnectResult.success

/-- The particular interleaving in which all starts of a batch precede all
its settles, in port order. -/
def canonicalSchedule (f l k : Nat) (env : Nat → ProbeEnv) : Nat → List Event :=
  fun i => startEvents i (batch_ports f l k i) ++ settleEvents env i (batch_ports f l k i)

lemma canonicalSchedule_valid (f l k : Nat) (env : Nat → ProbeEnv) :
    ValidSchedule f l k env (canonicalSchedule f l k env) :=
  fun _ => List.Perm.refl _

theorem batches_sequential_witness : (1 : Nat) < 3 :=
  batches_sequential 1 2 1 envAllOpen (canonicalSchedule 1 2 1 envAllOpen)
    (canonicalSchedule_valid 1 2 1 envAllOpen) 0 1 2 1 3 (Outcome.ok true) rfl rfl

theorem interval_after_each_batch_witness :
    (scanTrace 1 2 1 (canonicalSchedule 1 2 1 envAllOpen)).filter Event.isWait
      = (List.range (batch_count 1 2 1)).map Event.intervalWait :=
  (interval_after_each_batch 1 2 1 envAllOpen (canonicalSchedule 1 2 1 envAllOpen)
    (canonicalSchedule_valid 1 2 1 envAllOpen)).1

/-! ### Socket release and probe outcome classification -/

/-- Claim C7: the probe acquires a fresh socket on the connect path and the
socket is released on every exit path: whenever a socket was acquired during
a `scan_port` invocation, it has been closed by the time the coroutine
finishes, whatever the connection attempt did (success, timeout, caught
`OSError`, or an escaping exception). -/
theorem probe_socket_released (e : ProbeEnv) :
    ((scan_port e).acquired = true → (scan_port e).sockClosed = true) ∧
    (∀ r, (scan_port (ProbeEnv.connect r)).acquired = true) := by
  constructor
  · cases e with
    | createFail m =>
        intro h
        simp [scan_port] at h
    | connect r =>
        intro _
        rfl
  · intro r
    rfl

theorem probe_socket_released_witness :
    (scan_port (ProbeEnv.connect ConnectResult.timedOut)).sockClosed = true :=
  (probe_socket_released (ProbeEnv.connect ConnectResult.timedOut)).1 rfl

/-- Claim C4 counterexample: in the code a timed-out connection attempt is
caught inside `scan_port` and recorded as a plain not-open result, exactly
like a refused connection, and scanning an unreachable host records no error
outcome at all: `scan` of the range 1 to 10 with batch size 3 over an
all-timeout environment returns normally with an empty open-port list and an
empty error map, instead of classifying every port as a timeout error. -/
theorem timeout_is_not_error_counterexample :
    probeOutcome (ProbeEnv.connect ConnectResult.timedOut) = Outcome.ok false ∧
    probeOutcome (ProbeEnv.connect (ConnectResult.osError "connection refused"))
      = Outcome.ok false ∧
    scan 1 10 3 (fun _ => ProbeEnv.connect ConnectResult.timedOut) = Except.ok [] ∧
    errorsOf 1 10 (fun _ => ProbeEnv.connect ConnectResult.timedOut) = [] := by
  exact ⟨rfl, rfl, rfl, rfl⟩

/-- Claim C4 amended: a probe whose connection attempt does not complete
within the timeout is recorded as not open (a `False` result), coalesced
with protocol-level refusals and other `OSError` failures rather than
distinguished as an error outcome with a timeout cause; consequently
scanning an unreachable host (every probe timing out or failing with an
`OSError`) yields an empty open-port list and an empty error map, and `scan`
returns normally. -/
theorem timeout_coalesced_not_open (f l k : Nat) (env : Nat → ProbeEnv) (hk : 1 ≤ k)
    (henv : ∀ p, env p = ProbeEnv.connect ConnectResult.timedOut ∨
      ∃ m, env p = ProbeEnv.connect (ConnectResult.osError m)) :
    probeOutcome (ProbeEnv.connect ConnectResult.timedOut) = Outcome.ok false ∧
    (∀ m, probeOutcome (ProbeEnv.connect (ConnectResult.osError m)) = Outcome.ok false) ∧
    openPortsOf f l env = [] ∧
    errorsOf f l env = [] ∧
    scan f l k env = Except.ok [] := by
  have hout : ∀ p, probeOutcome (env p) = Outcome.ok false := by
    intro p
    rcases henv p with h | ⟨m, h⟩
    · rw [h]
      rfl
    · rw [h]
      rfl
  have hop : openPortsOf f l env = [] := by
    unfold openPortsOf openPortsOfList
    rw [List.filter_eq_nil_iff]
    intro p _
    simp [hout p]
  have herr : errorsOf f l env = [] := by
    unfold errorsOf errorsOfList
    rw [List.filterMap_eq_nil_iff]
    intro p _
    simp [hout p]
  refine ⟨rfl, fun m => rfl, hop, herr, ?_⟩
  unfold scan
  rw [parse_results_scan f l k env hk, hop, herr]
  rfl

theorem timeout_coalesced_not_open_witness :
    scan 1 10 3 (fun _ => ProbeEnv.connect ConnectResult.timedOut) = Except.ok [] :=
  (timeout_coalesced_not_open 1 10 3 (fun _ => ProbeEnv.connect ConnectResult.timedOut)
    (by decide) (fun _ => Or.inl rfl)).2.2.2.2

/-! ### Degenerate empty range -/

lemma ports_nil_of_gt (f l : Nat) (h : l < f) : ports f l = [] := by
  unfold ports
  have h0 : l + 1 - f = 0 := by omega
  rw [h0]
  rfl

/-- Claim C10: calling `scan` with `first_port > last_port` produces zero
batches, launches no probes (the results dict stays empty), and returns the
empty open-port list without raising. -/
theorem scan_empty_range (f l k : Nat) (env : Nat → ProbeEnv) (h : l < f) :
    batch_count f l k = 0 ∧
    batches f l k = [] ∧
    results f l k env = [] ∧
    scan f l k env = Except.ok [] := by
  have hp := ports_nil_of_gt f l h
  have hbc : batch_count f l k = 0 := by
    unfold batch_count
    rw [hp]
    simp only [List.length_nil]
    rcases Nat.eq_zero_or_pos k with hk | hk
    · subst hk
      rfl
    · exact Nat.div_eq_of_lt (by omega)
  have hbs : batches f l k = [] := by
    unfold batches
    rw [hbc]
    rfl
  have hres : results f l k env = [] := by
    unfold results
    rw [hbs]
    rfl
  refine ⟨hbc, hbs, hres, ?_⟩
  unfold scan
  rw [hres]
  rfl

theorem scan_empty_range_witness :
    scan 5 3 4 envAllOpen = Except.ok [] :=
  (scan_empty_range 5 3 4 envAllOpen (by decide)).2.2.2

/-! ### Interruption by KeyboardInterrupt -/

/-- State of a task future at parse time after an interruption: settled with
an outcome, or still pending, in which case its `result()` raises
`InvalidStateError`. -/
inductive FutureState : Type
  | done : Outcome → FutureState
  | pending : FutureState
deriving DecidableEq

/-- Where the `KeyboardInterrupt` lands: during batch `i` inside
`run_until_complete(asyncio.wait(tasks))`, with `settled` telling which
ports' futures had already completed when the interrupt arrived, or during
the interval sleep after batch `i`. -/
inductive InterruptPoint : Type
  | duringBatch : Nat → (Nat → Bool) → InterruptPoint
  | duringInterval : Nat → InterruptPoint

/-- Entries of a fully settled batch. -/
def doneEntries (env : Nat → ProbeEnv) (b : List Nat) : List (Nat × FutureState) :=
  b.map (fun p => (p, FutureState.done (probeOutcome (env p))))

/-- Entries of the interrupted batch: ports whose future settled before the
interrupt carry their outcome, the rest are still pending. -/
def mixedEntries (env : Nat → ProbeEnv) (st : Nat → Bool) (b : List Nat) :
    List (Nat × FutureState) :=
  b.map (fun p =>
    (p, if st p then FutureState.done (probeOutcome (env p)) else FutureState.pending))

/-- The results dict contents after the first `n` batches ran to
completion. -/
def settledResults (f l k : Nat) (env : Nat → ProbeEnv) (n : Nat) : List (Nat × FutureState) :=
  ((batches f l k).take n).foldl (fun acc b => dictUpdate acc (doneEntries env b)) []

/-- The results dict at the moment the parsing loop runs, for an interrupted
scan: batches before the interrupted one are fully settled; the interrupted
batch had already been inserted into the dict (sps.py line 301 runs before
line 303) with its futures in whatever state the interrupt left them; later
batches were never launched. -/
def resultsInterrupted (f l k : Nat) (env : Nat → ProbeEnv) :
    InterruptPoint → List (Nat × FutureState)
  | .duringBatch i st =>
      dictUpdate (settledResults f l k env i) (mixedEntries env st (batch_ports f l k i))
  | .duringInterval i => settledResults f l k env (i + 1)

/-- What `results[port].result()` does on each future state (sps.py line
328): a settled future yields its outcome, a pending one raises
`InvalidStateError`. -/
def futureResult : FutureState → Except PyExn Bool
  | .done (.ok b) => .ok b
  | .done (.exn ex) => .error ex
  | .pending => .error .invalidState

/-- One step of the parsing loop over future states (the `except Exception`
clause catches the invalid-state error of a pending future as well). -/
def parseStepI (acc : List Nat × List (Nat × PyExn)) (e : Nat × FutureState) :
    List Nat × List (Nat × PyExn) :=
  match futureResult e.2 with
  | .ok true => (acc.1 ++ [e.1], acc.2)
  | .ok false => acc
  | .error ex => (acc.1, acc.2 ++ [(e.1, ex)])

def parseResultsI (res : List (Nat × FutureState)) : List Nat × List (Nat × PyExn) :=
  res.foldl parseStepI ([], [])

/-- sps.py lines 316-340 for an interrupted run: the `except
KeyboardInterrupt` clause swallows the interrupt, the loop is closed, and
the parsing and raising code runs on whatever the results dict holds. -/
def scanInterrupted (f l k : Nat) (env : Nat → ProbeEnv) (ip : InterruptPoint) :
    Except (List Nat × List (Nat × PyExn)) (List Nat) :=
  let r := parseResultsI (resultsInterrupted f l k env ip)
  if r.2.isEmpty then .ok r.1 else .error r

/-- Projection matching the open branch of the parsing loop over future
states. -/
def openProjI (e : Nat × FutureState) : Option Nat :=
  match futureResult e.2 with
  | .ok true => some e.1
  | _ => none

/-- Projection matching the error branch of the parsing loop over future
states. -/
def errProjI (e : Nat × FutureState) : Option (Nat × PyExn) :=
  match futureResult e.2 with
  | .error ex => some (e.1, ex)
  | _ => none

lemma parse_foldlI :
    ∀ (res : List (Nat × FutureState)) (op : List Nat) (errs : List (Nat × PyExn)),
      res.foldl parseStepI (op, errs)
        = (op ++ res.filterMap openProjI, errs ++ res.filterMap errProjI) := by
  intro res
  induction res with
  | nil =>
      intro op errs
      simp
  | cons e t ih =>
      intro op errs
      rcases e with ⟨p, fs⟩
      rw [List.foldl_cons]
      cases fs with
      | done o =>
          cases o with
          | ok b =>
              cases b with
              | true =>
                  have hstep : parseStepI (op, errs) (p, FutureState.done (Outcome.ok true))
                      = (op ++ [p], errs) := rfl
                  rw [hstep, ih]
                  simp [openProjI, errProjI, futureResult]
              | false =>
                  have hstep : parseStepI (op, errs) (p, FutureState.done (Outcome.ok false))
                      = (op, errs) := rfl
                  rw [hstep, ih]
                  simp [openProjI, errProjI, futureResult]
          | exn ex =>
              have hstep : parseStepI (op, errs) (p, FutureState.done (Outcome.exn ex))
                  = (op, errs ++ [(p, ex)]) := rfl
              rw [hstep, ih]
              simp [openProjI, errProjI, futureResult]
      | pending =>
          have hstep : parseStepI (op, errs) (p, FutureState.pending)
              = (op, errs ++ [(p, PyExn.invalidState)]) := rfl
          rw [hstep, ih]
          simp [openProjI, errProjI, futureResult]

lemma parseResultsI_eq (res : List (Nat × FutureState)) :
    parseResultsI res = (res.filterMap openProjI, res.filterMap errProjI) := by
  have h := parse_foldlI res [] []
  simpa [parseResultsI] using h

lemma filterMapI_open (env : Nat → ProbeEnv) :
    ∀ L : List Nat,
      (L.map (fun p => (p, FutureState.done (probeOutcome (env p))))).filterMap openProjI
        = openPortsOfList L env := by
  intro L
  induction L with
  | nil => rfl
  | cons a t ih =>
      simp only [List.map_cons, List.filterMap_cons, openPortsOfList, List.filter_cons]
      cases h : probeOutcome (env a) with
      | ok b =>
          cases b with
          | true => simp [openProjI, futureResult, ih, openPortsOfList]
          | false => simp [openProjI, futureResult, ih, openPortsOfList]
      | exn ex => simp [openProjI, futureResult, ih, openPortsOfList]

lemma filterMapI_err (env : Nat → ProbeEnv) :
    ∀ L : List Nat,
      (L.map (fun p => (p, FutureState.done (probeOutcome (env p))))).filterMap errProjI
        = errorsOfList L env := by
  intro L
  induction L with
  | nil => rfl
  | cons a t ih =>
      simp only [List.map_cons, List.filterMap_cons, errorsOfList]
      cases h : probeOutcome (env a) with
      | ok b =>
          cases b with
          | true => simp [errProjI, futureResult, ih, errorsOfList]
          | false => simp [errProjI, futureResult, ih, errorsOfList]
      | exn ex => simp [errProjI, futureResult, ih, errorsOfList]

lemma prefix_flatten_nodup (f l k : Nat) (hk : 0 < k) (n : Nat) :
    (((batches f l k).take n).flatten).Nodup := by
  have hnd0 : (batches f l k).flatten.Nodup := by
    rw [batches_flatten f l k hk]
    exact ports_nodup f l
  have hsplit : ((batches f l k).take n).flatten ++ ((batches f l k).drop n).flatten
      = (batches f l k).flatten := by
    rw [← List.flatten_append, List.take_append_drop]
  rw [← hsplit] at hnd0
  exact hnd0.of_append_left

lemma settledResults_eq (f l k : Nat) (env : Nat → ProbeEnv) (hk : 0 < k) (n : Nat) :
    settledResults f l k env n
      = ((batches f l k).take n).flatten.map
          (fun p => (p, FutureState.done (probeOutcome (env p)))) := by
  have h := foldl_dictUpdate_eq (fun p => FutureState.done (probeOutcome (env p)))
    ((batches f l k).take n) []
  simp only [List.map_nil, List.nil_append] at h
  have h2 := h (prefix_flatten_nodup f l k hk n)
  simpa [settledResults, doneEntries] using h2

lemma take_succ_batches (f l k : Nat) (i : Nat) (hi : i < batch_count f l k) :
    (batches f l k).take (i + 1) = (batches f l k).take i ++ [batch_ports f l k i] := by
  rw [List.take_succ]
  have hget : (batches f l k)[i]? = some (batch_ports f l k i) := by
    unfold batches
    rw [List.getElem?_map, List.getElem?_range hi]
    rfl
  rw [hget]
  rfl

lemma resultsInterrupted_during_eq (f l k : Nat) (env : Nat → ProbeEnv) (hk : 0 < k)
    (i : Nat) (st : Nat → Bool) (hi : i < batch_count f l k) :
    resultsInterrupted f l k env (InterruptPoint.duringBatch i st)
      = ((batches f l k).take i).flatten.map
          (fun p => (p, FutureState.done (probeOutcome (env p))))
        ++ mixedEntries env st (batch_ports f l k i) := by
  have hsucc : (((batches f l k).take (i + 1)).flatten).Nodup :=
    prefix_flatten_nodup f l k hk (i + 1)
  rw [take_succ_batches f l k i hi, List.flatten_append, List.flatten_cons,
    List.flatten_nil, List.append_nil] at hsucc
  have hdisj0 := List.disjoint_of_nodup_append hsucc
  simp only [resultsInterrupted]
  rw [settledResults_eq f l k env hk i]
  refine dictUpdate_of_disjoint (mixedEntries env st (batch_ports f l k i)) _ ?_ ?_
  · intro x hx
    rcases List.mem_map.mp hx with ⟨p, hp, rfl⟩
    rw [keys_map_pair]
    intro hmem
    exact hdisj0 hmem hp
  · have hkeys : (mixedEntries env st (batch_ports f l k i)).map Prod.fst
        = batch_ports f l k i := keys_map_pair _ _
    rw [hkeys]
    exact (List.nodup_append.mp hsucc).2.1

/-- Claim C8 counterexample: interrupting a run of two single-port batches
during the second batch, before its probe settles, makes the scan raise the
aggregate error condition carrying a spurious invalid-state error entry for
the pending port, instead of returning the accumulated partial result as a
non-error flagged partial. -/
theorem interruption_raises_counterexample :
    scanInterrupted 1 2 1 envAllOpen (InterruptPoint.duringBatch 1 (fun _ => false))
      = Except.error ([1], [(2, PyExn.invalidState)]) := by
  rfl

/-- Claim C8 amended: on interruption no further batches are launched (the
results dict covers exactly the batches up to the interrupted one) and the
outcomes already recorded for completed probes are preserved and carried to
the caller; however, ports of the interrupted batch whose futures had not
settled are recorded as invalid-state error entries, so a mid-batch
interruption surfaces through the aggregate error condition rather than a
distinct partial flag, and an interruption during the inter-batch sleep
behaves exactly like a completed scan of the prefix of batches. -/
theorem scan_interrupted_preserved (f l k : Nat) (env : Nat → ProbeEnv) (i : Nat)
    (st : Nat → Bool) (hk : 1 ≤ k) (hi : i < batch_count f l k) :
    ((resultsInterrupted f l k env (InterruptPoint.duringBatch i st)).map Prod.fst
        = ((batches f l k).take (i + 1)).flatten) ∧
    (∀ p ∈ ((batches f l k).take i).flatten,
      (p, FutureState.done (probeOutcome (env p)))
        ∈ resultsInterrupted f l k env (InterruptPoint.duringBatch i st)) ∧
    (∀ p ∈ batch_ports f l k i, st p = true →
      (p, FutureState.done (probeOutcome (env p)))
        ∈ resultsInterrupted f l k env (InterruptPoint.duringBatch i st)) ∧
    (∀ p ∈ batch_ports f l k i, st p = false →
      (p, PyExn.invalidState)
        ∈ (parseResultsI (resultsInterrupted f l k env (InterruptPoint.duringBatch i st))).2) ∧
    (scanInterrupted f l k env (InterruptPoint.duringInterval i)
      = if (errorsOfList (((batches f l k).take (i + 1)).flatten) env).isEmpty
        then Except.ok (openPortsOfList (((batches f l k).take (i + 1)).flatten) env)
        else Except.error (openPortsOfList (((batches f l k).take (i + 1)).flatten) env,
          errorsOfList (((batches f l k).take (i + 1)).flatten) env)) := by
  have hchar := resultsInterrupted_during_eq f l k env hk i st hi
  refine ⟨?_, ?_, ?_, ?_, ?_⟩
  · have hkeys : (mixedEntries env st (batch_ports f l k i)).map Prod.fst
        = batch_ports f l k i := keys_map_pair _ _
    rw [hchar, List.map_append, keys_map_pair, hkeys,
      take_succ_batches f l k i hi, List.flatten_append, List.flatten_cons,
      List.flatten_nil, List.append_nil]
  · intro p hp
    rw [hchar]
    exact List.mem_append_left _ (List.mem_map_of_mem _ hp)
  · intro p hp hst
    rw [hchar]
    refine List.mem_append_right _ ?_
    refine List.mem_map.mpr ⟨p, hp, ?_⟩
    rw [hst]
    simp
  · intro p hp hst
    rw [hchar, parseResultsI_eq]
    refine List.mem_filterMap.mpr ⟨(p, FutureState.pending), ?_, rfl⟩
    refine List.mem_append_right _ ?_
    refine List.mem_map.mpr ⟨p, hp, ?_⟩
    rw [hst]
    simp
  · unfold scanInterrupted
    simp only [resultsInterrupted]
    rw [settledResults_eq f l k env hk (i + 1), parseResultsI_eq,
      filterMapI_open env, filterMapI_err env]

theorem scan_interrupted_preserved_witness :
    (2, PyExn.invalidState)
      ∈ (parseResultsI (resultsInterrupted 1 2 1 envAllOpen
          (InterruptPoint.duringBatch 1 (fun _ => false)))).2 :=
  (scan_interrupted_preserved 1 2 1 envAllOpen 1 (fun _ => false)
    (by decide) (by decide)).2.2.2.1 2 (by decide) rfl

end SPS
